import Mathlib

set_option autoImplicit false
set_option maxHeartbeats 1000000

/-!
# Verification of the siberite persistent queue and GET controller

This file gives a shallow embedding of the `queue` package (persistent FIFO
over an ordered key-value store) and of `controller/get.go` (the GET command
family), and proves the specified properties about them.

Modelling conventions:
* Go `[]byte` values and strings are modelled as `List Char`.
* `uint64` counters are modelled as `Nat` with arithmetic taken `% 2^64`
  exactly where Go wraps.
* The leveldb store is modelled as an association list sorted in ascending
  (decoded) key order; `Put`/`Get`/`Delete` are single-key operations and
  iteration order is the list order.  Keys are kept as the decoded `Nat`
  value of the 8-byte big-endian encoding; `encodeKey` below together with
  `encodeKey_lex_lt` justifies that ordering by encoded bytes and ordering
  by the numeric key agree.
* leveldb I/O failures are modelled by a `Bool` oracle parameter on each
  operation that performs a store write (`putOk` / `deleteOk`); the store is
  unchanged when the oracle reports failure, matching the store contract.
-/

namespace Siberite

/-- Byte strings / Go strings. -/
abbrev Str := List Char

/-- `2 ^ 64`, the modulus of Go's `uint64` arithmetic. -/
def U64 : Nat := 18446744073709551616

theorem U64_eq_pow : U64 = 2 ^ 64 := by decide

/-- `queue.Item`: one queue entry.  In the source `Key` holds the 8-byte
big-endian encoding of the `uint64` sequence number; we keep the decoded
number (see `encodeKey`). -/
structure Item where
  Key : Nat
  Value : Str
  Size : Nat
deriving DecidableEq

/-- `queue.Queue`: head/tail counters plus the backing ordered store.
`openTransactions` is the `Stats.OpenTransactions` counter. -/
structure Queue where
  head : Nat
  tail : Nat
  store : List (Nat × Str)
  openTransactions : Int
deriving DecidableEq

/-- Error text of `queue.peek` on an empty queue. -/
def msgEmpty : Str := "Queue is empty".toList

/-- Error text of `queue.Prepend` when `head < 1`. -/
def msgHeadZero : Str := "Queue head can not be less then zero".toList

/-- Stand-in for an environment-supplied leveldb I/O error message. -/
def msgStoreIO : Str := "leveldb error".toList

/-- leveldb `Put`: insert or overwrite one key, keeping the store sorted by
ascending key. -/
def storePut : List (Nat × Str) → Nat → Str → List (Nat × Str)
  | [], k, v => [(k, v)]
  | p :: rest, k, v =>
      if k < p.1 then (k, v) :: p :: rest
      else if k = p.1 then (k, v) :: rest
      else p :: storePut rest k v

/-- leveldb `Get`: look one key up. -/
def storeGet : List (Nat × Str) → Nat → Option Str
  | [], _ => none
  | p :: rest, k => if p.1 = k then some p.2 else storeGet rest k

/-- leveldb `Delete`: remove one key. -/
def storeDelete (s : List (Nat × Str)) (k : Nat) : List (Nat × Str) :=
  s.filter (fun p => decide (p.1 ≠ k))

/-- `queue.length`: `q.tail - q.head` in `uint64` arithmetic. -/
def Queue.length (q : Queue) : Nat := (U64 + q.tail - q.head) % U64

/-- `queue.Length` (the lock only guards concurrency, which the sequential
model does not need). -/
def Queue.Length (q : Queue) : Nat := q.length

/-- `queue.peek`: read the item at key `head + 1` without removing it.
Returns the item together with the error (`none` = success). -/
def Queue.peek (q : Queue) : Item × Option Str :=
  if q.length < 1 then (⟨0, [], 0⟩, some msgEmpty)
  else
    let key := (q.head + 1) % U64
    match storeGet q.store key with
    | some value => (⟨key, value, value.length⟩, none)
    | none => (⟨key, [], 0⟩, some msgStoreIO)

/-- `queue.Peek`. -/
def Queue.Peek (q : Queue) : Item × Option Str := q.peek

/-- `queue.Enqueue`: write `(tail + 1, value)`; increment `tail` only when
the store write succeeded (`putOk`). -/
def Queue.Enqueue (q : Queue) (value : Str) (putOk : Bool) : Queue × Option Str :=
  let key := (q.tail + 1) % U64
  if putOk then
    ({ q with store := storePut q.store key value, tail := (q.tail + 1) % U64 }, none)
  else (q, some msgStoreIO)

/-- `queue.Dequeue`: `peek`, then delete the item's key; increment `head`
only when the store delete succeeded (`deleteOk`). -/
def Queue.Dequeue (q : Queue) (deleteOk : Bool) : Queue × Item × Option Str :=
  let r := q.peek
  match r.2 with
  | some e => (q, r.1, some e)
  | none =>
      if deleteOk then
        ({ q with store := storeDelete q.store r.1.Key, head := (q.head + 1) % U64 },
          r.1, none)
      else (q, r.1, some msgStoreIO)

/-- `queue.Prepend`: require `head ≥ 1`, write the item's value at key
`head`, and decrement `head` on store success. -/
def Queue.Prepend (q : Queue) (item : Item) (putOk : Bool) : Queue × Option Str :=
  if q.head < 1 then (q, some msgHeadZero)
  else if putOk then
    ({ q with store := storePut q.store q.head item.Value, head := q.head - 1 }, none)
  else (q, some msgStoreIO)

/-- `queue.AddOpenTransactions`. -/
def Queue.AddOpenTransactions (q : Queue) (v : Int) : Queue :=
  { q with openTransactions := q.openTransactions + v }

/-- `queue.initialize` (renamed here): derive the counters from the first and last store
keys (the store iterates in ascending key order); both stay 0 on an empty
store.  Key decoding of the 8 stored bytes always yields a value `< 2^64`,
hence the `% U64`; the `head` formula is `firstKey - 1` in `uint64`
arithmetic. -/
def Queue.initCounters (s : List (Nat × Str)) : Queue :=
  let h : Nat := match s.head? with
    | some p => (p.1 % U64 + (U64 - 1)) % U64
    | none => 0
  let t : Nat := match s.getLast? with
    | some p => p.1 % U64
    | none => 0
  ⟨h, t, s, 0⟩

/-- A freshly opened queue over an empty store. -/
def emptyQ : Queue := ⟨0, 0, [], 0⟩

/-- 8-byte big-endian encoding of a `uint64`, as written by
`binary.BigEndian.PutUint64`. -/
def encodeKey (n : Nat) : List Nat :=
  [n / 2 ^ 56 % 256, n / 2 ^ 48 % 256, n / 2 ^ 40 % 256, n / 2 ^ 32 % 256,
   n / 2 ^ 24 % 256, n / 2 ^ 16 % 256, n / 2 ^ 8 % 256, n % 256]

/-!
## The FIFO invariant

`Inv q l` says the store holds exactly the contiguous keys
`head+1 … tail` paired, in order, with the value list `l`.
-/

/-- The queue `q` at rest represents the value sequence `l`. -/
def Inv (q : Queue) (l : List Str) : Prop :=
  q.head ≤ q.tail ∧ q.tail < U64 ∧ l.length = q.tail - q.head ∧
    q.store = (List.range' (q.head + 1) (q.tail - q.head)).zip l

instance (q : Queue) (l : List Str) : Decidable (Inv q l) := by
  unfold Inv; infer_instance

theorem inv_emptyQ : Inv emptyQ [] := by decide

theorem length_of_inv {q : Queue} {l : List Str} (h : Inv q l) :
    q.length = q.tail - q.head := by
  obtain ⟨h1, h2, _, _⟩ := h
  unfold Queue.length U64 at *
  omega

theorem storePut_of_forall_lt {s : List (Nat × Str)} {k : Nat} (v : Str)
    (h : ∀ p ∈ s, p.1 < k) : storePut s k v = s ++ [(k, v)] := by
  induction s with
  | nil => rfl
  | cons p rest ih =>
      have hp := h p (List.mem_cons_self p rest)
      have h1 : ¬ k < p.1 := by omega
      have h2 : ¬ k = p.1 := by omega
      simp only [storePut, if_neg h1, if_neg h2, List.cons_append]
      rw [ih (fun p hp => h p (List.mem_cons_of_mem _ hp))]

theorem storePut_of_forall_gt {s : List (Nat × Str)} {k : Nat} (v : Str)
    (h : ∀ p ∈ s, k < p.1) : storePut s k v = (k, v) :: s := by
  cases s with
  | nil => rfl
  | cons p rest =>
      have hp := h p (List.mem_cons_self p rest)
      simp only [storePut, if_pos hp]

theorem storeGet_storePut_same (s : List (Nat × Str)) (k : Nat) (v : Str) :
    storeGet (storePut s k v) k = some v := by
  induction s with
  | nil => simp [storePut, storeGet]
  | cons p rest ih =>
      by_cases h1 : k < p.1
      · simp [storePut, storeGet, if_pos h1]
      · by_cases h2 : k = p.1
        · simp [storePut, storeGet, h1, h2]
        · have : ¬ p.1 = k := fun h => h2 h.symm
          simp [storePut, storeGet, h1, h2, this, ih]

theorem storeDelete_of_forall_ne {s : List (Nat × Str)} {k : Nat}
    (h : ∀ p ∈ s, p.1 ≠ k) : storeDelete s k = s := by
  unfold storeDelete
  rw [List.filter_eq_self]
  intro p hp
  simp [h p hp]

/-- A successful `Enqueue` appends the value to the represented sequence. -/
theorem Inv.enqueue {q : Queue} {l : List Str} (h : Inv q l)
    (ht : q.tail + 1 < U64) (v : Str) :
    (q.Enqueue v true).2 = none ∧ Inv (q.Enqueue v true).1 (l ++ [v]) := by
  obtain ⟨h1, h2, h3, h4⟩ := h
  have hmod : (q.tail + 1) % U64 = q.tail + 1 := Nat.mod_eq_of_lt ht
  have hput : storePut q.store (q.tail + 1) v = q.store ++ [(q.tail + 1, v)] := by
    apply storePut_of_forall_lt
    intro p hp
    rw [h4] at hp
    have := (List.of_mem_zip hp).1
    rw [List.mem_range'_1] at this
    omega
  have henq : q.Enqueue v true =
      ({ q with store := storePut q.store (q.tail + 1) v, tail := q.tail + 1 }, none) := by
    unfold Queue.Enqueue
    simp [hmod]
  rw [henq]
  refine ⟨rfl, by simp; omega, by simp; omega, by simp; omega, ?_⟩
  simp only
  rw [hput, h4]
  have hlen : q.tail + 1 - q.head = (q.tail - q.head) + 1 := by omega
  rw [hlen, List.range'_1_concat]
  rw [List.zip_append (by simp [h3])]
  have hk : q.head + 1 + (q.tail - q.head) = q.tail + 1 := by omega
  simp [hk, h4]

/-- On a non-empty represented sequence, `peek` returns the first value. -/
theorem Inv.peekEq {q : Queue} {v : Str} {l : List Str} (h : Inv q (v :: l)) :
    q.peek = (⟨q.head + 1, v, v.length⟩, none) := by
  obtain ⟨h1, h2, h3, h4⟩ := h
  simp only [List.length_cons] at h3
  have hlenq : q.length = q.tail - q.head := by
    unfold Queue.length U64 at *; omega
  have hmod : (q.head + 1) % U64 = q.head + 1 := by
    unfold U64 at *; omega
  have hrange : List.range' (q.head + 1) (q.tail - q.head) =
      (q.head + 1) :: List.range' (q.head + 2) l.length := by
    have : q.tail - q.head = l.length + 1 := by omega
    rw [this, List.range'_succ]
  have hstore : q.store = (q.head + 1, v) :: (List.range' (q.head + 2) l.length).zip l := by
    rw [h4, hrange]; rfl
  unfold Queue.peek
  rw [if_neg (by omega), hmod, hstore]
  simp [storeGet]

/-- A successful `Prepend` pushes the item's value onto the front of the
represented sequence. -/
theorem Inv.prepend {q : Queue} {l : List Str} (h : Inv q l) (item : Item)
    (hh : 1 ≤ q.head) :
    (q.Prepend item true).2 = none ∧ Inv (q.Prepend item true).1 (item.Value :: l) := by
  obtain ⟨h1, h2, h3, h4⟩ := h
  have hput : storePut q.store q.head item.Value = (q.head, item.Value) :: q.store := by
    apply storePut_of_forall_gt
    intro p hp
    rw [h4] at hp
    have := (List.of_mem_zip hp).1
    rw [List.mem_range'_1] at this
    omega
  have hpq : q.Prepend item true =
      ({ q with store := storePut q.store q.head item.Value, head := q.head - 1 }, none) := by
    unfold Queue.Prepend
    rw [if_neg (by omega)]
    simp
  rw [hpq]
  refine ⟨rfl, by simp; omega, by simp; omega, by simp; omega, ?_⟩
  simp only
  rw [hput, h4]
  have hr : q.tail - (q.head - 1) = (q.tail - q.head) + 1 := by omega
  have hh1 : q.head - 1 + 1 = q.head := by omega
  rw [hr, hh1, List.range'_succ]
  rfl

/-- A successful `Dequeue` removes and returns the first represented value. -/
theorem Inv.dequeue {q : Queue} {v : Str} {l : List Str} (h : Inv q (v :: l)) :
    (q.Dequeue true).2.1 = ⟨q.head + 1, v, v.length⟩ ∧
    (q.Dequeue true).2.2 = none ∧
    (q.Dequeue true).1.head = q.head + 1 ∧
    (q.Dequeue true).1.tail = q.tail ∧
    Inv (q.Dequeue true).1 l := by
  obtain ⟨h1, h2, h3, h4⟩ := h
  simp only [List.length_cons] at h3
  have hlen1 : 1 ≤ q.tail - q.head := by omega
  have hlenq : q.length = q.tail - q.head := by
    unfold Queue.length U64 at *; omega
  have hmod : (q.head + 1) % U64 = q.head + 1 := by
    unfold U64 at *; omega
  have hrange : List.range' (q.head + 1) (q.tail - q.head) =
      (q.head + 1) :: List.range' (q.head + 2) l.length := by
    have : q.tail - q.head = l.length + 1 := by omega
    rw [this, List.range'_succ]
  have hstore : q.store = (q.head + 1, v) :: (List.range' (q.head + 2) l.length).zip l := by
    rw [h4, hrange]; rfl
  have hpeek : q.peek = (⟨q.head + 1, v, v.length⟩, none) := by
    unfold Queue.peek
    rw [if_neg (by omega), hmod, hstore]
    simp [storeGet]
  have hdel : storeDelete q.store (q.head + 1) =
      (List.range' (q.head + 2) l.length).zip l := by
    rw [hstore]
    unfold storeDelete
    rw [List.filter_cons_of_neg (by simp)]
    have : ∀ p ∈ (List.range' (q.head + 2) l.length).zip l, p.1 ≠ q.head + 1 := by
      intro p hp
      have := (List.of_mem_zip hp).1
      rw [List.mem_range'_1] at this
      omega
    have hfe : List.filter (fun p => decide (p.1 ≠ q.head + 1))
        ((List.range' (q.head + 2) l.length).zip l) =
        (List.range' (q.head + 2) l.length).zip l := by
      rw [List.filter_eq_self]
      intro p hp
      simp [this p hp]
    exact hfe
  have hdeq : q.Dequeue true =
      ({ q with store := storeDelete q.store (q.head + 1), head := (q.head + 1) % U64 },
        ⟨q.head + 1, v, v.length⟩, none) := by
    unfold Queue.Dequeue
    simp [hpeek]
  rw [hdeq]
  refine ⟨rfl, rfl, by simp [hmod], rfl, ?_⟩
  refine ⟨by simp [hmod]; omega, by simp [hmod]; omega, by simp [hmod]; omega, ?_⟩
  simp only [hmod]
  rw [hdel]
  have : q.tail - (q.head + 1) = l.length := by omega
  simp [this]

/-- Enqueue every value of `vs` in order (store writes all succeed). -/
def enqueueAll (q : Queue) (vs : List Str) : Queue :=
  vs.foldl (fun q v => (q.Enqueue v true).1) q

/-- Dequeue `n` items in order, collecting the returned values (store
deletes all succeed). -/
def dequeueVals (q : Queue) : Nat → List Str
  | 0 => []
  | n + 1 =>
      let r := q.Dequeue true
      r.2.1.Value :: dequeueVals r.1 n

theorem inv_enqueueAll (vs : List Str) : ∀ {q : Queue} {l : List Str}, Inv q l →
    q.tail + vs.length < U64 → Inv (enqueueAll q vs) (l ++ vs) := by
  induction vs with
  | nil => intro q l h _; simpa [enqueueAll] using h
  | cons v vs ih =>
      intro q l h hlt
      simp only [List.length_cons] at hlt
      have h1 := (h.enqueue (by omega) v).2
      have htail : (q.Enqueue v true).1.tail = q.tail + 1 := by
        simp [Queue.Enqueue, Nat.mod_eq_of_lt (show q.tail + 1 < U64 by omega)]
      have := ih h1 (by rw [htail]; omega)
      simpa [enqueueAll, List.foldl_cons, List.append_assoc] using this

theorem inv_dequeueVals : ∀ {l : List Str} {q : Queue}, Inv q l →
    dequeueVals q l.length = l := by
  intro l
  induction l with
  | nil => intro q _; rfl
  | cons v l ih =>
      intro q h
      obtain ⟨hd1, _, _, _, hinv⟩ := h.dequeue
      show (q.Dequeue true).2.1.Value :: dequeueVals (q.Dequeue true).1 l.length = v :: l
      rw [hd1, ih hinv]

/-- C1 (FIFO round-trip): enqueueing the sequence `vs` onto an empty queue
and then dequeueing everything returns exactly `vs`, in order and
byte-for-byte. -/
theorem fifo_round_trip (vs : List Str) (h : vs.length < U64) :
    dequeueVals (enqueueAll emptyQ vs) vs.length = vs := by
  have h0 : Inv emptyQ [] := inv_emptyQ
  have h1 : Inv (enqueueAll emptyQ vs) vs := by
    have := inv_enqueueAll vs h0 (by simpa [emptyQ] using h)
    simpa using this
  exact inv_dequeueVals h1

theorem fifo_round_trip_witness :
    dequeueVals (enqueueAll emptyQ ["a".toList, "bc".toList, "".toList]) 3 =
      ["a".toList, "bc".toList, "".toList] :=
  fifo_round_trip ["a".toList, "bc".toList, "".toList] (by decide)

/-!
## Big-endian key encoding

Ordering encoded keys lexicographically agrees with ordering the `uint64`
sequence numbers numerically; this justifies keeping decoded keys in the
store model while the real store compares encoded bytes.
-/

theorem encodeKey_lex_lt {a b : Nat} (hab : a < b) (hb : b < U64) :
    List.Lex (· < ·) (encodeKey a) (encodeKey b) := by
  unfold encodeKey U64 at *
  by_cases h7 : a / 2 ^ 56 % 256 < b / 2 ^ 56 % 256
  · exact List.Lex.rel h7
  have e7 : a / 2 ^ 56 % 256 = b / 2 ^ 56 % 256 := by omega
  rw [e7]; apply List.Lex.cons
  by_cases h6 : a / 2 ^ 48 % 256 < b / 2 ^ 48 % 256
  · exact List.Lex.rel h6
  have e6 : a / 2 ^ 48 % 256 = b / 2 ^ 48 % 256 := by omega
  rw [e6]; apply List.Lex.cons
  by_cases h5 : a / 2 ^ 40 % 256 < b / 2 ^ 40 % 256
  · exact List.Lex.rel h5
  have e5 : a / 2 ^ 40 % 256 = b / 2 ^ 40 % 256 := by omega
  rw [e5]; apply List.Lex.cons
  by_cases h4 : a / 2 ^ 32 % 256 < b / 2 ^ 32 % 256
  · exact List.Lex.rel h4
  have e4 : a / 2 ^ 32 % 256 = b / 2 ^ 32 % 256 := by omega
  rw [e4]; apply List.Lex.cons
  by_cases h3 : a / 2 ^ 24 % 256 < b / 2 ^ 24 % 256
  · exact List.Lex.rel h3
  have e3 : a / 2 ^ 24 % 256 = b / 2 ^ 24 % 256 := by omega
  rw [e3]; apply List.Lex.cons
  by_cases h2 : a / 2 ^ 16 % 256 < b / 2 ^ 16 % 256
  · exact List.Lex.rel h2
  have e2 : a / 2 ^ 16 % 256 = b / 2 ^ 16 % 256 := by omega
  rw [e2]; apply List.Lex.cons
  by_cases h1 : a / 2 ^ 8 % 256 < b / 2 ^ 8 % 256
  · exact List.Lex.rel h1
  have e1 : a / 2 ^ 8 % 256 = b / 2 ^ 8 % 256 := by omega
  rw [e1]; apply List.Lex.cons
  by_cases h0 : a % 256 < b % 256
  · exact List.Lex.rel h0
  exfalso; omega

/-!
## C2: the at-rest invariant and its preservation
-/

/-- The counters bound the store: the store holds exactly the keys
`head+1 … tail` (in ascending order). -/
def StoreWF (q : Queue) : Prop :=
  q.head ≤ q.tail ∧ q.tail < U64 ∧
    q.store.map Prod.fst = List.range' (q.head + 1) (q.tail - q.head)

instance (q : Queue) : Decidable (StoreWF q) := by
  unfold StoreWF; infer_instance

theorem storeGet_isSome_of_mem {s : List (Nat × Str)} {k : Nat}
    (h : k ∈ s.map Prod.fst) : ∃ v, storeGet s k = some v := by
  induction s with
  | nil => simp at h
  | cons p rest ih =>
      by_cases hk : p.1 = k
      · exact ⟨p.2, by simp [storeGet, hk]⟩
      · simp only [List.map_cons, List.mem_cons] at h
        rcases h with h | h
        · exact absurd h.symm hk
        · obtain ⟨v, hv⟩ := ih h
          exact ⟨v, by simp [storeGet, hk, hv]⟩

theorem map_fst_storeDelete (s : List (Nat × Str)) (k : Nat) :
    (storeDelete s k).map Prod.fst = (s.map Prod.fst).filter (fun x => decide (x ≠ k)) := by
  induction s with
  | nil => rfl
  | cons p rest ih =>
      by_cases hk : p.1 = k
      · simp [storeDelete, List.filter_cons, hk] at ih ⊢
        exact ih
      · simp [storeDelete, List.filter_cons, hk] at ih ⊢
        exact ih

/-- C2 (at-rest invariant): under `StoreWF`, `length = tail − head`, the
store holds exactly the keys `head+1 … tail` (so ascending iteration yields
exactly `length` items), and every successful `Enqueue`, `Dequeue` and
`Prepend` preserves `StoreWF`. -/
theorem queue_rest_invariant (q : Queue) (h : StoreWF q) :
    q.length = q.tail - q.head ∧
    q.store.map Prod.fst = List.range' (q.head + 1) (q.tail - q.head) ∧
    q.store.length = q.length ∧
    (∀ v putOk, q.tail + 1 < U64 → (q.Enqueue v putOk).2 = none →
      StoreWF (q.Enqueue v putOk).1) ∧
    (∀ deleteOk, (q.Dequeue deleteOk).2.2 = none → StoreWF (q.Dequeue deleteOk).1) ∧
    (∀ item putOk, (q.Prepend item putOk).2 = none → StoreWF (q.Prepend item putOk).1) := by
  obtain ⟨h1, h2, h3⟩ := h
  have hlen : q.length = q.tail - q.head := by
    unfold Queue.length U64 at *; omega
  refine ⟨hlen, h3, ?_, ?_, ?_, ?_⟩
  · have := congrArg List.length h3
    simp only [List.length_map, List.length_range'] at this
    rw [this, hlen]
  · -- Enqueue preservation
    intro v putOk ht henq
    cases putOk with
    | false => simp [Queue.Enqueue] at henq
    | true =>
        have hmod : (q.tail + 1) % U64 = q.tail + 1 := Nat.mod_eq_of_lt ht
        have hput : storePut q.store (q.tail + 1) v = q.store ++ [(q.tail + 1, v)] := by
          apply storePut_of_forall_lt
          intro p hp
          have : p.1 ∈ q.store.map Prod.fst := List.mem_map_of_mem Prod.fst hp
          rw [h3, List.mem_range'_1] at this
          omega
        have henq' : (q.Enqueue v true).1 =
            { q with store := storePut q.store (q.tail + 1) v, tail := q.tail + 1 } := by
          unfold Queue.Enqueue; simp [hmod]
        rw [henq']
        refine ⟨by simp; omega, by simp; omega, ?_⟩
        simp only
        rw [hput, List.map_append, h3]
        have hr : q.tail + 1 - q.head = (q.tail - q.head) + 1 := by omega
        rw [hr, List.range'_1_concat]
        have : q.head + 1 + (q.tail - q.head) = q.tail + 1 := by omega
        simp [this]
  · -- Dequeue preservation
    intro deleteOk hdeq
    by_cases hne : q.length < 1
    · exfalso
      have hpeek : q.peek = (⟨0, [], 0⟩, some msgEmpty) := by
        unfold Queue.peek
        rw [if_pos hne]
      unfold Queue.Dequeue at hdeq
      rw [hpeek] at hdeq
      simp at hdeq
    · have hge : 1 ≤ q.tail - q.head := by omega
      have hmod : (q.head + 1) % U64 = q.head + 1 := by
        unfold U64 at *; omega
      have hmem : q.head + 1 ∈ q.store.map Prod.fst := by
        rw [h3, List.mem_range'_1]; omega
      obtain ⟨v, hv⟩ := storeGet_isSome_of_mem hmem
      have hpeek : q.peek = (⟨q.head + 1, v, v.length⟩, none) := by
        unfold Queue.peek
        rw [if_neg hne]
        simp only [hmod, hv]
      cases deleteOk with
      | false => unfold Queue.Dequeue at hdeq; simp [hpeek] at hdeq
      | true =>
          have hdq : (q.Dequeue true).1 =
              { q with store := storeDelete q.store (q.head + 1), head := q.head + 1 } := by
            unfold Queue.Dequeue
            simp [hpeek, hmod]
          rw [hdq]
          refine ⟨by simp; omega, by simp; omega, ?_⟩
          simp only
          rw [map_fst_storeDelete, h3]
          have hr : q.tail - q.head = (q.tail - (q.head + 1)) + 1 := by omega
          rw [hr, List.range'_succ, List.filter_cons_of_neg (by simp)]
          rw [List.filter_eq_self.mpr]
          intro x hx
          rw [List.mem_range'_1] at hx
          simp; omega
  · -- Prepend preservation
    intro item putOk hpre
    by_cases h0 : q.head < 1
    · exfalso
      unfold Queue.Prepend at hpre
      rw [if_pos h0] at hpre
      simp at hpre
    · cases putOk with
      | false =>
          exfalso
          unfold Queue.Prepend at hpre
          rw [if_neg h0] at hpre
          simp at hpre
      | true =>
          have hput : storePut q.store q.head item.Value = (q.head, item.Value) :: q.store := by
            apply storePut_of_forall_gt
            intro p hp
            have : p.1 ∈ q.store.map Prod.fst := List.mem_map_of_mem Prod.fst hp
            rw [h3, List.mem_range'_1] at this
            omega
          have hpq : (q.Prepend item true).1 =
              { q with store := storePut q.store q.head item.Value, head := q.head - 1 } := by
            unfold Queue.Prepend
            rw [if_neg h0]
            simp
          rw [hpq]
          refine ⟨by simp; omega, by simp; omega, ?_⟩
          simp only
          rw [hput, List.map_cons, h3]
          have hr : q.tail - (q.head - 1) = (q.tail - q.head) + 1 := by omega
          have hh : q.head - 1 + 1 = q.head := by omega
          rw [hr, hh, List.range'_succ]

/-- A concrete well-formed queue used by the witnesses. -/
def qC2 : Queue := ⟨1, 3, [(2, ['a']), (3, ['b'])], 0⟩

theorem queue_rest_invariant_witness : qC2.length = qC2.tail - qC2.head :=
  (queue_rest_invariant qC2 (by decide)).1

/-!
## C3: counter updates are conditioned on store success
-/

/-- C3: `Enqueue` increments `tail` exactly when the store write succeeds,
`Dequeue` increments `head` exactly when the store delete was attempted and
succeeded, and a failed store operation leaves the whole queue unchanged. -/
theorem counters_follow_store (q : Queue) (v : Str) (putOk deleteOk : Bool) :
    ((q.Enqueue v putOk).1.tail = if putOk then (q.tail + 1) % U64 else q.tail) ∧
    (q.Enqueue v putOk).1.head = q.head ∧
    ((q.Enqueue v putOk).2 ≠ none → (q.Enqueue v putOk).1 = q) ∧
    ((q.Dequeue deleteOk).1.head =
      if q.peek.2 = none ∧ deleteOk = true then (q.head + 1) % U64 else q.head) ∧
    (q.Dequeue deleteOk).1.tail = q.tail ∧
    ((q.Dequeue deleteOk).2.2 ≠ none → (q.Dequeue deleteOk).1 = q) := by
  refine ⟨?_, ?_, ?_, ?_, ?_, ?_⟩
  · cases putOk <;> simp [Queue.Enqueue]
  · cases putOk <;> simp [Queue.Enqueue]
  · cases putOk <;> simp [Queue.Enqueue]
  · rcases hpk : q.peek with ⟨it, err⟩
    cases err with
    | some e => simp [Queue.Dequeue, hpk]
    | none => cases deleteOk <;> simp [Queue.Dequeue, hpk]
  · rcases hpk : q.peek with ⟨it, err⟩
    cases err with
    | some e => simp [Queue.Dequeue, hpk]
    | none => cases deleteOk <;> simp [Queue.Dequeue, hpk]
  · rcases hpk : q.peek with ⟨it, err⟩
    cases err with
    | some e => simp [Queue.Dequeue, hpk]
    | none => cases deleteOk <;> simp [Queue.Dequeue, hpk]

theorem counters_follow_store_witness : (qC2.Enqueue ['x'] false).1 = qC2 :=
  (counters_follow_store qC2 ['x'] false true).2.2.1 (by decide)

/-!
## C6: Prepend
-/

/-- C6: `Prepend` fails (leaving the queue untouched) exactly when
`head = 0`; with `head ≥ 1` it writes the value at key `head` and decrements
`head`; and after a `Dequeue` returning `x`, `Prepend x` makes the next
`peek` return `x` again. -/
theorem prepend_spec (q : Queue) (item : Item) :
    (q.head = 0 → ∀ putOk, q.Prepend item putOk = (q, some msgHeadZero)) ∧
    (1 ≤ q.head →
      q.Prepend item true =
        ({ q with store := storePut q.store q.head item.Value, head := q.head - 1 }, none)) ∧
    (∀ v l, Inv q (v :: l) →
      (q.Dequeue true).2.1.Value = v ∧
      ((q.Dequeue true).1.Prepend (q.Dequeue true).2.1 true).1.peek.1.Value = v) := by
  refine ⟨?_, ?_, ?_⟩
  · intro h0 putOk
    unfold Queue.Prepend
    rw [if_pos (by omega)]
  · intro h1
    unfold Queue.Prepend
    rw [if_neg (by omega)]
    simp
  · intro v l hinv
    obtain ⟨hd1, _, hdh, hdt, hinv'⟩ := hinv.dequeue
    refine ⟨by rw [hd1], ?_⟩
    have hh1 : 1 ≤ (q.Dequeue true).1.head := by omega
    have hpre := hinv'.prepend (q.Dequeue true).2.1 hh1
    rw [Inv.peekEq hpre.2]
    simp [hd1]

/-- A concrete queue satisfying `Inv qC6 [x]` for the C6 witness. -/
def qC6 : Queue := ⟨0, 1, [(1, ['x'])], 0⟩

theorem prepend_spec_witness :
    ((qC6.Dequeue true).1.Prepend (qC6.Dequeue true).2.1 true).1.peek.1.Value = ['x'] :=
  ((prepend_spec qC6 ⟨9, ['z'], 1⟩).2.2 ['x'] [] (by decide)).2

/-!
## C7: counter initialization from the store
-/

/-- A persisted store whose keys are not contiguous. -/
def sGap : List (Nat × Str) := [(1, ['a']), (5, ['b'])]

/-- C7 counterexample: on store contents with keys `{1, 5}` the derived
counters give `Length = 5`, but only 2 items are persisted, so "Length after
reopening equals the number of items persisted" fails for arbitrary store
contents. -/
theorem initialize_length_counterexample :
    (Queue.initCounters sGap).head = 0 ∧ (Queue.initCounters sGap).tail = 5 ∧
    (Queue.initCounters sGap).Length = 5 ∧ sGap.length = 2 ∧
    (Queue.initCounters sGap).Length ≠ sGap.length := by decide

/-- C7 amended: `initialize` derives `head = firstKey − 1` and
`tail = lastKey` (0 on an empty store), and when the persisted keys are
contiguous — as the queue operations always leave them — `Length` equals the
number of persisted items. -/
theorem initialize_spec (s : List (Nat × Str))
    (hk : ∀ p ∈ s, 1 ≤ p.1 ∧ p.1 < U64)
    (hs : List.Sorted (· < ·) (s.map Prod.fst)) :
    (s = [] → Queue.initCounters s = ⟨0, 0, [], 0⟩) ∧
    (∀ k v rest, s = (k, v) :: rest → (Queue.initCounters s).head = k - 1) ∧
    (∀ pre k v, s = pre ++ [(k, v)] → (Queue.initCounters s).tail = k) ∧
    (Queue.initCounters s).store = s ∧
    (∀ a n, s.map Prod.fst = List.range' a n → (Queue.initCounters s).Length = s.length) := by
  refine ⟨?_, ?_, ?_, rfl, ?_⟩
  · intro h; subst h; rfl
  · intro k v rest hsk
    subst hsk
    obtain ⟨hk1, hk2⟩ := hk (k, v) (List.mem_cons_self _ _)
    have hred : (Queue.initCounters ((k, v) :: rest)).head =
        (k % U64 + (U64 - 1)) % U64 := rfl
    rw [hred]
    unfold U64 at *
    omega
  · intro pre k v hsk
    subst hsk
    obtain ⟨hk1, hk2⟩ := hk (k, v) (by simp)
    show (match (pre ++ [(k, v)]).getLast? with
      | some p => p.1 % U64
      | none => 0) = k
    rw [List.getLast?_concat]
    show k % U64 = k
    unfold U64 at *
    omega
  · intro a n hmap
    cases n with
    | zero =>
        have hnil : s = [] := by
          have := congrArg List.length hmap
          simpa using this
        subst hnil
        rfl
    | succ m =>
        cases s with
        | nil => simp at hmap
        | cons p rest =>
            have hfst : p.1 = a := by
              rw [List.range'_succ] at hmap
              simp only [List.map_cons, List.cons.injEq] at hmap
              exact hmap.1
            have h1 : ((p :: rest).map Prod.fst).getLast? = some (a + m) := by
              rw [hmap, List.range'_1_concat, List.getLast?_concat]
            rw [List.getLast?_map] at h1
            rcases hg : (p :: rest : List (Nat × Str)).getLast? with _ | q
            · rw [hg] at h1; simp at h1
            rw [hg] at h1
            have hq1 : q.1 = a + m := by
              simpa using h1
            have hmema : q ∈ (p :: rest : List (Nat × Str)) := by
              obtain ⟨hne, heq⟩ := List.mem_getLast?_eq_getLast (Option.mem_def.mpr hg)
              rw [heq]
              exact List.getLast_mem hne
            obtain ⟨ha1, _⟩ := hk p (List.mem_cons_self _ _)
            obtain ⟨_, ha3⟩ := hk q hmema
            rw [hfst] at ha1
            rw [hq1] at ha3
            have hlen : (p :: rest : List (Nat × Str)).length = m + 1 := by
              have := congrArg List.length hmap
              simpa using this
            have hredh : (Queue.initCounters (p :: rest)).head =
                (p.1 % U64 + (U64 - 1)) % U64 := rfl
            have hredt : (Queue.initCounters (p :: rest)).tail = q.1 % U64 := by
              show (match (p :: rest : List (Nat × Str)).getLast? with
                | some pp => pp.1 % U64
                | none => 0) = q.1 % U64
              rw [hg]
            show (Queue.initCounters (p :: rest)).Length = (p :: rest : List (Nat × Str)).length
            unfold Queue.Length Queue.length
            rw [hredh, hredt, hq1, hfst, hlen]
            unfold U64 at *
            omega

/-- A contiguous persisted store for the C7 witness. -/
def sC7 : List (Nat × Str) := [(3, ['a']), (4, ['b']), (5, ['c'])]

theorem initialize_spec_witness :
    (Queue.initCounters sC7).Length = sC7.length :=
  (initialize_spec sC7 (by decide) (by decide)).2.2.2.2 3 3 (by decide)

/-!
## The GET command parser (`controller/get.go`)

`parseGetCommand` first strips every match of the Go regular expression
`(t\=\d+)\/?` (a timeout token `t=<digits>` together with the slash that
follows it, if any) — guarded, as in the source, by a substring test for
`t=` — and then splits `queueName[/sub...]` at the first `/`, trimming
stray slashes around the sub-command.
-/

def isDigitC (c : Char) : Bool := decide ('0' ≤ c ∧ c ≤ '9')

/-- States of the scanner implementing `timeoutRegexp.ReplaceAllString`:
`n` = nothing pending, `t` = seen `t`, `te` = seen `t=`,
`td` = seen `t=` plus at least one digit (a complete match so far). -/
inductive TS where
  | n | t | te | td
deriving DecidableEq

/-- Pending characters to re-emit when the input ends in the given state. -/
def flushTS : TS → Str
  | .n => []
  | .t => ['t']
  | .te => ['t', '=']
  | .td => []

/-- One left-to-right scan replacing every leftmost match of
`(t\=\d+)\/?` by the empty string, exactly as Go's
`regexp.ReplaceAllString` does for this pattern (greedy digits, then the
optional slash). -/
def stripAux : TS → Str → Str
  | st, [] => flushTS st
  | .n, c :: rest =>
      if c = 't' then stripAux .t rest else c :: stripAux .n rest
  | .t, c :: rest =>
      if c = '=' then stripAux .te rest
      else if c = 't' then 't' :: stripAux .t rest
      else 't' :: c :: stripAux .n rest
  | .te, c :: rest =>
      if isDigitC c then stripAux .td rest
      else if c = 't' then 't' :: '=' :: stripAux .t rest
      else 't' :: '=' :: c :: stripAux .n rest
  | .td, c :: rest =>
      if isDigitC c then stripAux .td rest
      else if c = '/' then stripAux .n rest
      else if c = 't' then stripAux .t rest
      else c :: stripAux .n rest

/-- `timeoutRegexp.ReplaceAllString(s, "")`. -/
def replaceTimeouts (l : Str) : Str := stripAux .n l

/-- Does `pre` occur at the start of `l`? -/
def strHasPre : Str → Str → Bool
  | [], _ => true
  | _ :: _, [] => false
  | a :: as, b :: bs => a == b && strHasPre as bs

/-- `strings.Contains hay needle`. -/
def containsStr : Str → Str → Bool
  | [], needle => needle.isEmpty
  | c :: rest, needle => strHasPre needle (c :: rest) || containsStr rest needle

/-- First component of `strings.SplitN(s, "/", 2)`. -/
def takeNoSlash : Str → Str
  | [] => []
  | c :: rest => if c = '/' then [] else c :: takeNoSlash rest

/-- Second component of `strings.SplitN(s, "/", 2)` (everything after the
first `/`). -/
def dropToSlashTail : Str → Str
  | [] => []
  | c :: rest => if c = '/' then rest else dropToSlashTail rest

def dropLeadSlash : Str → Str
  | [] => []
  | c :: rest => if c = '/' then dropLeadSlash rest else c :: rest

def trimTrailSlash : Str → Str
  | [] => []
  | c :: rest =>
      match trimTrailSlash rest with
      | [] => if c = '/' then [] else [c]
      | r => c :: r

/-- `strings.Trim(s, "/")`. -/
def trimSlash (l : Str) : Str := trimTrailSlash (dropLeadSlash l)

/-- `controller.Command` (only the fields `parseGetCommand` fills). -/
structure Command where
  Name : Str
  QueueName : Str
  SubCommand : Str
deriving DecidableEq

def tEqStr : Str := "t=".toList
def slashStr : Str := "/".toList

/-- `parseGetCommand(input)`: `input[0]` is the verb, `input[1]` the
`queue[/sub…]` argument. -/
def parseGetCommand (input : List Str) : Command :=
  let name := input.getD 0 []
  let arg0 := input.getD 1 []
  let arg1 := if containsStr arg0 tEqStr then replaceTimeouts arg0 else arg0
  if containsStr arg1 slashStr then
    { Name := name, QueueName := takeNoSlash arg1,
      SubCommand := trimSlash (dropToSlashTail arg1) }
  else
    { Name := name, QueueName := arg1, SubCommand := [] }

/-!
## The GET controller (`controller/get.go`)
-/

def strOpen : Str := "open".toList
def strClose : Str := "close".toList
def strCloseOpen : Str := "close/open".toList
def strAbort : Str := "abort".toList
def strPeek : Str := "peek".toList
def crlf : Str := "\r\n".toList
def endLine : Str := "END\r\n".toList
def errCloseFirst : Str := ("CLIENT_ERROR " ++ "Close current item first").toList
def errInvalid : Str := ("ERROR " ++ "Invalid command").toList
def serverErrPre : Str := "SERVER_ERROR ".toList

/-- The two `Fprintf` calls emitting a dequeued/peeked value:
`VALUE <queue> 0 <len>\r\n<bytes>\r\n`. -/
def valueLine (queueName value : Str) : Str :=
  "VALUE ".toList ++ queueName ++ " 0 ".toList ++ (Nat.repr value.length).toList ++
    crlf ++ value ++ crlf

/-- The per-session controller state visible to the GET handlers: the
queue directory (the repository, which all sessions share), the session's
single reservation, the buffered writer contents, and the repository's
`CmdGet` counter. -/
structure Controller where
  repo : List (Str × Queue)
  currentItem : Option Item
  currentQueueName : Option Str
  out : Str
  cmdGet : Nat
deriving DecidableEq

/-- Modelled from the spec: `Repository.GetQueue` (the `repository` package
is not among the sources) returns the shared queue instance for a name,
opening a fresh empty queue on first reference; store-open failures are not
modelled. -/
def repoGet : List (Str × Queue) → Str → Queue
  | [], _ => emptyQ
  | p :: rest, name => if p.1 = name then p.2 else repoGet rest name

/-- Write a (mutated) shared queue instance back into the directory. -/
def repoSet : List (Str × Queue) → Str → Queue → List (Str × Queue)
  | [], name, q => [(name, q)]
  | p :: rest, name, q =>
      if p.1 = name then (name, q) :: rest else p :: repoSet rest name q

/-- Modelled from the spec: `setCurrentState(cmd, item)` records the
session's single reservation `(queueName, Item)`; `setCurrentState(nil,
nil)` clears it.  The helper lives in `controller.go`, which is not among
the sources; `get.go` only sets, clears and tests it. -/
def Controller.setCurrentState (c : Controller) (qn : Option Str)
    (item : Option Item) : Controller :=
  { c with currentQueueName := qn, currentItem := item }

/-- `Controller.get`: reject when an item is held; otherwise dequeue
(ignoring the dequeue error), emit a `VALUE` block only for a non-empty
value, and take the reservation only when the sub-command contains `open`
and the value is non-empty. -/
def Controller.get (c : Controller) (cmd : Command) (deleteOk : Bool) :
    Controller × Option Str :=
  if c.currentItem.isSome then (c, some errCloseFirst)
  else
    let q := repoGet c.repo cmd.QueueName
    let r := q.Dequeue deleteOk
    let c1 := { c with repo := repoSet c.repo cmd.QueueName r.1 }
    let c2 := if 0 < r.2.1.Value.length then
        { c1 with out := c1.out ++ valueLine cmd.QueueName r.2.1.Value }
      else c1
    let c3 := if containsStr cmd.SubCommand strOpen ∧ 0 < r.2.1.Value.length then
        { (c2.setCurrentState (some cmd.QueueName) (some r.2.1)) with
            repo := repoSet c2.repo cmd.QueueName (r.1.AddOpenTransactions 1) }
      else c2
    ({ c3 with cmdGet := (c3.cmdGet + 1) % U64 }, none)

/-- `Controller.getClose`: if an item is held, decrement the *named*
queue's open-transaction counter and clear the reservation. -/
def Controller.getClose (c : Controller) (cmd : Command) :
    Controller × Option Str :=
  let q := repoGet c.repo cmd.QueueName
  if c.currentItem.isSome then
    ({ (c.setCurrentState none none) with
        repo := repoSet c.repo cmd.QueueName (q.AddOpenTransactions (-1)) }, none)
  else (c, none)

/-- `Controller.abort`: if an item is held, prepend it onto the *named*
queue; a failed prepend surfaces as `SERVER_ERROR`, otherwise decrement
that queue's open-transaction counter and clear the reservation. -/
def Controller.abort (c : Controller) (cmd : Command) (putOk : Bool) :
    Controller × Option Str :=
  match c.currentItem with
  | none => (c, none)
  | some item =>
      let q := repoGet c.repo cmd.QueueName
      let r := q.Prepend item putOk
      match r.2 with
      | some e =>
          ({ c with repo := repoSet c.repo cmd.QueueName r.1 }, some (serverErrPre ++ e))
      | none =>
          ({ (c.setCurrentState none none) with
              repo := repoSet c.repo cmd.QueueName (r.1.AddOpenTransactions (-1)) }, none)

/-- `Controller.getAbort` wraps `abort`. -/
def Controller.getAbort (c : Controller) (cmd : Command) (putOk : Bool) :
    Controller × Option Str :=
  Controller.abort c cmd putOk

/-- `Controller.peek`: read without removing, ignoring the peek error, and
emit a `VALUE` block only for a non-empty value. -/
def Controller.peek (c : Controller) (cmd : Command) : Controller × Option Str :=
  let q := repoGet c.repo cmd.QueueName
  let item := q.Peek.1
  let c1 := if 0 < item.Value.length then
      { c with out := c.out ++ valueLine cmd.QueueName item.Value }
    else c
  ({ c1 with cmdGet := (c1.cmdGet + 1) % U64 }, none)

/-- `Controller.Get`: parse, dispatch on the sub-command, and append the
final `END\r\n` only on success.  `storeOk` is the success oracle for the
single store write the dispatched handler may perform. -/
def Controller.Get (c : Controller) (input : List Str) (storeOk : Bool) :
    Controller × Option Str :=
  let cmd := parseGetCommand input
  let r :=
    if cmd.SubCommand = [] ∨ cmd.SubCommand = strOpen then c.get cmd storeOk
    else if cmd.SubCommand = strClose then c.getClose cmd
    else if cmd.SubCommand = strCloseOpen then
      match c.getClose cmd with
      | (c1, none) => c1.get cmd storeOk
      | (c1, some e) => (c1, some e)
    else if cmd.SubCommand = strAbort then c.getAbort cmd storeOk
    else if cmd.SubCommand = strPeek then c.peek cmd
    else (c, some errInvalid)
  match r with
  | (c1, some e) => (c1, some e)
  | (c1, none) => ({ c1 with out := c1.out ++ endLine }, none)

/-!
## C4: a held item blocks further GET / GET-open
-/

/-- C4: while the session holds an item, `GET q'` with no sub-command or
with sub-command `open` — for any queue name — returns
`CLIENT_ERROR Close current item first` and leaves the whole controller
state (reservation, every queue, output) unchanged. -/
theorem holding_get_rejected (c : Controller) (input : List Str) (storeOk : Bool)
    (it : Item) (h1 : c.currentItem = some it)
    (h2 : (parseGetCommand input).SubCommand = [] ∨
      (parseGetCommand input).SubCommand = strOpen) :
    Controller.Get c input storeOk = (c, some errCloseFirst) := by
  have hget : Controller.get c (parseGetCommand input) storeOk = (c, some errCloseFirst) := by
    unfold Controller.get
    rw [if_pos (by rw [h1]; rfl)]
  simp only [Controller.Get]
  rw [if_pos h2, hget]

/-- Concrete session holding an item dequeued from queue `a`. -/
def itemHeld : Item := ⟨1, ['x'], 1⟩

def qHeldA : Queue := ⟨1, 1, [], 1⟩

def cHolding : Controller :=
  ⟨[("a".toList, qHeldA)], some itemHeld, some ("a".toList), [], 0⟩

theorem holding_get_rejected_witness :
    Controller.Get cHolding ["get".toList, "b".toList] true =
      (cHolding, some errCloseFirst) :=
  holding_get_rejected cHolding ["get".toList, "b".toList] true itemHeld
    (by decide) (by decide)

/-!
## C5: close/abort do not check that the named queue matches
-/

/-- C5 counterexample: holding an item dequeued from queue `a`, the command
`GET b/close` — naming a *different* queue — nevertheless clears the
reservation, succeeds, and decrements `openTransactions` of queue `b`
(leaving queue `a`'s counter at 1), contradicting the claim that the close
transition fires only when the names match. -/
theorem close_ignores_queue_match :
    (Controller.Get cHolding ["get".toList, "b/close".toList] true).1.currentItem = none ∧
    (repoGet (Controller.Get cHolding ["get".toList, "b/close".toList] true).1.repo
      ("b".toList)).openTransactions = -1 ∧
    (repoGet (Controller.Get cHolding ["get".toList, "b/close".toList] true).1.repo
      ("a".toList)).openTransactions = 1 ∧
    (Controller.Get cHolding ["get".toList, "b/close".toList] true).2 = none := by
  decide

/-- C5 amended: while holding an item, `GET q'/close` and `GET q'/abort`
perform the close/abort effects on the queue *named in the command*,
whether or not it matches the held item's origin: close decrements
`q'.openTransactions` and clears the reservation for any `q'`; abort (when
`q'.head ≥ 1`, so the prepend succeeds) prepends the held item onto `q'`
and decrements `q'.openTransactions`. -/
theorem close_abort_act_on_named_queue (c : Controller) (input : List Str)
    (storeOk : Bool) (it : Item) (h1 : c.currentItem = some it) :
    ((parseGetCommand input).SubCommand = strClose →
      Controller.Get c input storeOk =
        ({ c with
            repo := repoSet c.repo (parseGetCommand input).QueueName
              ((repoGet c.repo (parseGetCommand input).QueueName).AddOpenTransactions (-1)),
            currentItem := none, currentQueueName := none,
            out := c.out ++ endLine }, none)) ∧
    ((parseGetCommand input).SubCommand = strAbort →
      1 ≤ (repoGet c.repo (parseGetCommand input).QueueName).head →
      Controller.Get c input true =
        ({ c with
            repo := repoSet c.repo (parseGetCommand input).QueueName
              ((((repoGet c.repo (parseGetCommand input).QueueName).Prepend it
                  true).1).AddOpenTransactions (-1)),
            currentItem := none, currentQueueName := none,
            out := c.out ++ endLine }, none)) := by
  constructor
  · intro hsc
    have hclose : Controller.getClose c (parseGetCommand input) =
        ({ c with
            repo := repoSet c.repo (parseGetCommand input).QueueName
              ((repoGet c.repo (parseGetCommand input).QueueName).AddOpenTransactions (-1)),
            currentItem := none, currentQueueName := none }, none) := by
      unfold Controller.getClose Controller.setCurrentState
      rw [if_pos (by rw [h1]; rfl)]
    simp only [Controller.Get]
    rw [hsc, if_neg (by decide), if_pos rfl, hclose]
  · intro hsc hhead
    have habort : Controller.abort c (parseGetCommand input) true =
        ({ c with
            repo := repoSet c.repo (parseGetCommand input).QueueName
              ((((repoGet c.repo (parseGetCommand input).QueueName).Prepend it
                  true).1).AddOpenTransactions (-1)),
            currentItem := none, currentQueueName := none }, none) := by
      unfold Controller.abort Controller.setCurrentState
      rw [h1]
      have hpre : ((repoGet c.repo (parseGetCommand input).QueueName).Prepend it true).2 =
          none := by
        unfold Queue.Prepend
        rw [if_neg (by omega)]
        simp
      simp only
      rw [hpre]
    simp only [Controller.Get]
    rw [hsc, if_neg (by decide), if_neg (by decide), if_neg (by decide), if_pos rfl]
    unfold Controller.getAbort
    rw [habort]

/-- Concrete holding session whose repo also has a queue `b` with
`head ≥ 1`, used to witness the amended C5 on a mismatched abort. -/
def qOtherB : Queue := ⟨2, 3, [(3, ['y'])], 0⟩

def cHolding2 : Controller :=
  ⟨[("a".toList, qHeldA), ("b".toList, qOtherB)], some itemHeld,
    some ("a".toList), [], 0⟩

theorem close_abort_act_on_named_queue_witness :
    Controller.Get cHolding2 ["get".toList, "b/abort".toList] true =
      ({ cHolding2 with
          repo := repoSet cHolding2.repo
            (parseGetCommand ["get".toList, "b/abort".toList]).QueueName
            ((((repoGet cHolding2.repo
                (parseGetCommand ["get".toList, "b/abort".toList]).QueueName).Prepend
                itemHeld true).1).AddOpenTransactions (-1)),
          currentItem := none, currentQueueName := none,
          out := cHolding2.out ++ endLine }, none) :=
  (close_abort_act_on_named_queue cHolding2 ["get".toList, "b/abort".toList] true
    itemHeld (by decide)).2 (by decide) (by decide)

/-!
## C9: handler error propagation
-/

/-- A one-item queue and an idle session over it. -/
def qOne : Queue := ⟨0, 1, [(1, ['z'])], 0⟩

def cIdle : Controller := ⟨[("a".toList, qOne)], none, none, [], 0⟩

/-- C9 counterexample: when the store delete fails (an I/O error),
`Queue.Dequeue` reports the error, but `GET a` still reports success and
even emits the value block: the handler discards the error (the source
reads `item, _ := q.Dequeue()`), so nothing surfaces for the protocol layer
to turn into `SERVER_ERROR`. -/
theorem get_discards_dequeue_error :
    (qOne.Dequeue false).2.2 = some msgStoreIO ∧
    (Controller.Get cIdle ["get".toList, "a".toList] false).2 = none ∧
    (Controller.Get cIdle ["get".toList, "a".toList] false).1.out =
      "VALUE a 0 1\r\nz\r\nEND\r\n".toList := by
  decide

/-- C9 amended: `GetQueue` failures aside (not modelled), the GET handlers
surface no `Dequeue`/`Peek` error: `get` (with no item held) and `peek`
always return success, responding as if the read had worked or the queue
were empty; only `abort`'s failed `Prepend` is surfaced, prefixed
`SERVER_ERROR `. -/
theorem handler_error_surfacing (c : Controller) (cmd : Command) (storeOk : Bool) :
    (c.currentItem = none → (Controller.get c cmd storeOk).2 = none) ∧
    (Controller.peek c cmd).2 = none ∧
    (∀ it, c.currentItem = some it →
      (repoGet c.repo cmd.QueueName).head = 0 →
      (Controller.abort c cmd storeOk).2 = some (serverErrPre ++ msgHeadZero)) := by
  refine ⟨?_, rfl, ?_⟩
  · intro h0
    unfold Controller.get
    rw [if_neg (by rw [h0]; simp)]
  · intro it h1 hh
    unfold Controller.abort
    rw [h1]
    have hpre : ((repoGet c.repo cmd.QueueName).Prepend it storeOk) =
        (repoGet c.repo cmd.QueueName, some msgHeadZero) := by
      unfold Queue.Prepend
      rw [if_pos (by omega)]
    simp only
    rw [hpre]

theorem handler_error_surfacing_witness :
    (Controller.abort cHolding ⟨"get".toList, "b".toList, strAbort⟩ true).2 =
      some (serverErrPre ++ msgHeadZero) :=
  (handler_error_surfacing cHolding ⟨"get".toList, "b".toList, strAbort⟩ true).2.2
    itemHeld (by decide) (by decide)

/-!
## C10: zero-length values dequeue silently
-/

/-- C10: with no item held and the next item's value zero-length, `GET q`
and `GET q/open` delete that item from the queue but write no `VALUE` line
— the response is exactly `END\r\n` — and no reservation is taken
(`currentItem` stays `none`, `openTransactions` unchanged: the record
update below touches neither). -/
theorem zero_length_value_get (c : Controller) (input : List Str) (q : Queue)
    (h0 : c.currentItem = none)
    (h1 : (parseGetCommand input).SubCommand = [] ∨
      (parseGetCommand input).SubCommand = strOpen)
    (h2 : repoGet c.repo (parseGetCommand input).QueueName = q)
    (h3 : 1 ≤ q.length)
    (h4 : storeGet q.store ((q.head + 1) % U64) = some []) :
    Controller.Get c input true =
      ({ c with
          repo := repoSet c.repo (parseGetCommand input).QueueName
            { q with head := (q.head + 1) % U64,
                     store := storeDelete q.store ((q.head + 1) % U64) },
          out := c.out ++ endLine,
          cmdGet := (c.cmdGet + 1) % U64 }, none) := by
  have hpeek : q.peek = (⟨(q.head + 1) % U64, [], 0⟩, none) := by
    unfold Queue.peek
    rw [if_neg (by omega)]
    simp only [h4]
    rfl
  have hdeq : q.Dequeue true =
      ({ q with head := (q.head + 1) % U64,
                store := storeDelete q.store ((q.head + 1) % U64) },
        ⟨(q.head + 1) % U64, [], 0⟩, none) := by
    unfold Queue.Dequeue
    rw [hpeek]
    rfl
  have hget : Controller.get c (parseGetCommand input) true =
      ({ c with
          repo := repoSet c.repo (parseGetCommand input).QueueName
            { q with head := (q.head + 1) % U64,
                     store := storeDelete q.store ((q.head + 1) % U64) },
          cmdGet := (c.cmdGet + 1) % U64 }, none) := by
    unfold Controller.get
    rw [if_neg (by rw [h0]; simp)]
    simp only [h2, hdeq]
    rw [if_neg (by simp), if_neg (by simp)]
  simp only [Controller.Get]
  rw [if_pos h1, hget]

/-- An idle session over a queue whose next value is zero-length. -/
def qZero : Queue := ⟨0, 1, [(1, [])], 0⟩

def cIdleZ : Controller := ⟨[("a".toList, qZero)], none, none, [], 0⟩

theorem zero_length_value_get_witness :
    Controller.Get cIdleZ ["get".toList, "a/open".toList] true =
      ({ cIdleZ with
          repo := repoSet cIdleZ.repo
            (parseGetCommand ["get".toList, "a/open".toList]).QueueName
            { qZero with head := (qZero.head + 1) % U64,
                         store := storeDelete qZero.store ((qZero.head + 1) % U64) },
          out := cIdleZ.out ++ endLine,
          cmdGet := (cIdleZ.cmdGet + 1) % U64 }, none) :=
  zero_length_value_get cIdleZ ["get".toList, "a/open".toList] qZero
    (by decide) (by decide) (by decide) (by decide) (by decide)

/-!
## C8: the parser strips timeout tokens and preserves order

The claim quantifies over inputs `q(/<tok>)*` where every `<tok>` is either
`t=<digits>` or one of `open`, `close`, `abort`, `peek`.  We represent such
a token list as a `List GetTok` (the representation is unambiguous: no
plain token starts with `t=`), render it to the input string, and compare
the parse against the `/`-join of the plain tokens in order.
-/

/-- A queue-name character (`[A-Za-z0-9_]`). -/
def isQChar (c : Char) : Bool :=
  decide (('a' ≤ c ∧ c ≤ 'z') ∨ ('A' ≤ c ∧ c ≤ 'Z') ∨ ('0' ≤ c ∧ c ≤ '9') ∨ c = '_')

/-- The recognized plain GET sub-command tokens. -/
def plainToks : List Str := [strOpen, strClose, strAbort, strPeek]

/-- One token of the GET sub-command grammar. -/
inductive GetTok where
  | timeout (ds : Str)
  | plain (s : Str)

/-- The characters of a token (`t=<ds>` for a timeout). -/
def tokStr : GetTok → Str
  | .timeout ds => 't' :: '=' :: ds
  | .plain s => s

def isTmo : GetTok → Bool
  | .timeout _ => true
  | .plain _ => false

/-- Well-formed token: a timeout carries at least one digit and only
digits; a plain token is one of the four recognized words. -/
def goodTok : GetTok → Prop
  | .timeout ds => ds ≠ [] ∧ ds.all isDigitC = true
  | .plain s => s ∈ plainToks

/-- `(/<tok>)*`: each token preceded by a slash. -/
def renderToks : List GetTok → Str
  | [] => []
  | t :: rest => '/' :: (tokStr t ++ renderToks rest)

/-- The non-timeout tokens, in order. -/
def plains (ts : List GetTok) : List Str :=
  ts.filterMap (fun t => match t with | .plain s => some s | .timeout _ => none)

/-- `/`-join. -/
def joinSlash : List Str → Str
  | [] => []
  | t :: rest => t ++ (match rest with | [] => ([] : Str) | _ :: _ => '/' :: joinSlash rest)

/-- What remains of a rendered token list after the regex replacement,
minus the leading slash. -/
def bodyStrip : List GetTok → Str
  | [] => []
  | .timeout _ :: rest => if rest.isEmpty then [] else bodyStrip rest
  | .plain s :: rest =>
      s ++ (match rest with | [] => ([] : Str) | _ :: _ => '/' :: bodyStrip rest)

/-- What remains of a rendered token list after the regex replacement. -/
def stripRender : List GetTok → Str
  | [] => []
  | t :: rest => '/' :: bodyStrip (t :: rest)

theorem isQChar_ne {c : Char} (h : isQChar c = true) : c ≠ '=' ∧ c ≠ '/' := by
  constructor <;> rintro rfl <;> revert h <;> decide

/-- A digit run is swallowed whole in the matched state. -/
theorem stripAux_td_digits {ds : Str} (h : ds.all isDigitC = true) (r : Str) :
    stripAux .td (ds ++ r) = stripAux .td r := by
  induction ds with
  | nil => rfl
  | cons d ds ih =>
      simp only [List.all_cons, Bool.and_eq_true] at h
      simp only [List.cons_append, stripAux, if_pos h.1]
      exact ih h.2

/-- Characters free of `=` pass through the scanner unchanged, provided
what follows is empty or starts with a slash. -/
theorem stripAux_pass {s : Str} (hs : ∀ c ∈ s, c ≠ '=') {r : Str}
    (hr : r = [] ∨ ∃ r', r = '/' :: r') :
    stripAux .n (s ++ r) = s ++ stripAux .n r ∧
    stripAux .t (s ++ r) = 't' :: (s ++ stripAux .n r) := by
  induction s with
  | nil =>
      refine ⟨rfl, ?_⟩
      rcases hr with rfl | ⟨r', rfl⟩
      · rfl
      · simp [stripAux]
  | cons c s ih =>
      have hc := hs c (List.mem_cons_self c s)
      have ih' := ih (fun c hc => hs c (List.mem_cons_of_mem _ hc))
      by_cases hct : c = 't'
      · subst hct
        refine ⟨?_, ?_⟩
        · simp [stripAux, ih'.2]
        · simp [stripAux, hc, ih'.2]
      · refine ⟨?_, ?_⟩
        · simp [stripAux, hct, ih'.1]
        · simp [stripAux, hc, hct, ih'.1]

theorem plain_mem_ne_eq {s : Str} (h : s ∈ plainToks) : ∀ c ∈ s, c ≠ '=' := by
  simp only [plainToks, List.mem_cons, List.not_mem_nil, or_false] at h
  rcases h with rfl | rfl | rfl | rfl <;> decide

theorem renderToks_shape (ts : List GetTok) :
    renderToks ts = [] ∨ ∃ r', renderToks ts = '/' :: r' := by
  cases ts with
  | nil => exact Or.inl rfl
  | cons t rest => exact Or.inr ⟨tokStr t ++ renderToks rest, rfl⟩

/-- The scanner, fed one token (whose leading slash has already been
consumed) followed by the rendered remainder, produces `bodyStrip`. -/
theorem stripAux_body (rest : List GetTok) : ∀ t : GetTok,
    goodTok t → (∀ u ∈ rest, goodTok u) →
    stripAux .n (tokStr t ++ renderToks rest) = bodyStrip (t :: rest) := by
  induction rest with
  | nil =>
      intro t hg _
      cases t with
      | plain s =>
          have := (stripAux_pass (plain_mem_ne_eq hg) (Or.inl rfl)).1
          simpa [bodyStrip, tokStr, renderToks, stripAux, flushTS] using this
      | timeout ds =>
          obtain ⟨hne, hdig⟩ := hg
          obtain ⟨d, ds', rfl⟩ : ∃ d ds', ds = d :: ds' := by
            cases ds with
            | nil => exact absurd rfl hne
            | cons d ds' => exact ⟨d, ds', rfl⟩
          simp only [List.all_cons, Bool.and_eq_true] at hdig
          have hrun := stripAux_td_digits hdig.2 ([] : Str)
          simp only [List.append_nil] at hrun
          show stripAux .n ('t' :: '=' :: d :: ds' ++ []) = []
          simp [stripAux, hdig.1, hrun, bodyStrip, flushTS]
  | cons r1 rest' ih =>
      intro t hg hrest
      have hr1 : goodTok r1 := hrest r1 (List.mem_cons_self r1 rest')
      have hrest' : ∀ u ∈ rest', goodTok u :=
        fun u hu => hrest u (List.mem_cons_of_mem _ hu)
      have hih := ih r1 hr1 hrest'
      cases t with
      | plain s =>
          have hpass := (stripAux_pass (plain_mem_ne_eq hg)
            (renderToks_shape (r1 :: rest'))).1
          show stripAux .n (s ++ renderToks (r1 :: rest')) =
            bodyStrip (.plain s :: r1 :: rest')
          rw [hpass]
          show s ++ stripAux .n ('/' :: (tokStr r1 ++ renderToks rest')) =
            bodyStrip (.plain s :: r1 :: rest')
          have hslash : stripAux .n ('/' :: (tokStr r1 ++ renderToks rest')) =
              '/' :: stripAux .n (tokStr r1 ++ renderToks rest') := by
            simp [stripAux]
          rw [hslash, hih]
          rfl
      | timeout ds =>
          obtain ⟨hne, hdig⟩ := hg
          obtain ⟨d, ds', rfl⟩ : ∃ d ds', ds = d :: ds' := by
            cases ds with
            | nil => exact absurd rfl hne
            | cons d ds' => exact ⟨d, ds', rfl⟩
          simp only [List.all_cons, Bool.and_eq_true] at hdig
          have hrun := stripAux_td_digits hdig.2 (renderToks (r1 :: rest'))
          show stripAux .n ('t' :: '=' :: d :: ds' ++ renderToks (r1 :: rest')) =
            bodyStrip (.timeout (d :: ds') :: r1 :: rest')
          have hstep : stripAux .n ('t' :: '=' :: d :: ds' ++ renderToks (r1 :: rest')) =
              stripAux .td (ds' ++ renderToks (r1 :: rest')) := by
            simp [stripAux, hdig.1]
          rw [hstep, hrun]
          show stripAux .td ('/' :: (tokStr r1 ++ renderToks rest')) =
            bodyStrip (.timeout (d :: ds') :: r1 :: rest')
          have hslash : stripAux .td ('/' :: (tokStr r1 ++ renderToks rest')) =
              stripAux .n (tokStr r1 ++ renderToks rest') := by
            simp [stripAux, isDigitC]
          rw [hslash, hih]
          rfl

theorem stripAux_render (ts : List GetTok) (h : ∀ t ∈ ts, goodTok t) :
    stripAux .n (renderToks ts) = stripRender ts := by
  cases ts with
  | nil => rfl
  | cons t rest =>
      show stripAux .n ('/' :: (tokStr t ++ renderToks rest)) = '/' :: bodyStrip (t :: rest)
      have hslash : stripAux .n ('/' :: (tokStr t ++ renderToks rest)) =
          '/' :: stripAux .n (tokStr t ++ renderToks rest) := by
        simp [stripAux]
      rw [hslash, stripAux_body rest t (h t (List.mem_cons_self t rest))
        (fun u hu => h u (List.mem_cons_of_mem _ hu))]

theorem replaceTimeouts_render (q : Str) (hq : ∀ c ∈ q, isQChar c = true)
    (ts : List GetTok) (h : ∀ t ∈ ts, goodTok t) :
    replaceTimeouts (q ++ renderToks ts) = q ++ stripRender ts := by
  unfold replaceTimeouts
  rw [(stripAux_pass (fun c hc => (isQChar_ne (hq c hc)).1) (renderToks_shape ts)).1,
    stripAux_render ts h]

theorem containsStr_tEq (xs ys : Str) :
    containsStr (xs ++ 't' :: '=' :: ys) tEqStr = true := by
  induction xs with
  | nil => simp [containsStr, strHasPre, tEqStr]
  | cons c xs ih => simp [containsStr, ih]

theorem render_has_tEq : ∀ (ts : List GetTok) (q : Str),
    (∃ t ∈ ts, isTmo t = true) →
    ∃ xs ys, q ++ renderToks ts = xs ++ 't' :: '=' :: ys := by
  intro ts
  induction ts with
  | nil =>
      intro q h
      simp at h
  | cons t rest ih =>
      intro q h
      rcases h with ⟨u, hu, htmo⟩
      rcases List.mem_cons.mp hu with rfl | humem
      · cases u with
        | plain s => simp [isTmo] at htmo
        | timeout ds =>
            refine ⟨q ++ ['/'], ds ++ renderToks rest, ?_⟩
            simp [renderToks, tokStr]
      · obtain ⟨xs, ys, hxy⟩ := ih (q ++ '/' :: tokStr t) ⟨u, humem, htmo⟩
        refine ⟨xs, ys, ?_⟩
        rw [← hxy]
        simp [renderToks]

theorem renderToks_all_plain (ts : List GetTok) (h : ∀ t ∈ ts, isTmo t = false) :
    renderToks ts = stripRender ts := by
  induction ts with
  | nil => rfl
  | cons t rest ih =>
      cases t with
      | timeout ds =>
          have := h _ (List.mem_cons_self _ rest)
          simp [isTmo] at this
      | plain s =>
          cases rest with
          | nil => rfl
          | cons r1 rest' =>
              have hih := ih (fun u hu => h u (List.mem_cons_of_mem _ hu))
              show '/' :: (s ++ renderToks (r1 :: rest')) =
                '/' :: (s ++ '/' :: bodyStrip (r1 :: rest'))
              rw [hih]
              rfl

theorem containsStr_no_slash {l : Str} (h : ∀ c ∈ l, c ≠ '/') :
    containsStr l slashStr = false := by
  induction l with
  | nil => decide
  | cons c rest ih =>
      have hc := h c (List.mem_cons_self c rest)
      have ih' := ih (fun c hc => h c (List.mem_cons_of_mem _ hc))
      have hbeq : (('/' : Char) == c) = false := by
        simp [Ne.symm hc]
      show (strHasPre slashStr (c :: rest) || containsStr rest slashStr) = false
      rw [ih']
      simp [strHasPre, slashStr, hbeq]

theorem containsStr_slash (xs ys : Str) :
    containsStr (xs ++ '/' :: ys) slashStr = true := by
  induction xs with
  | nil => simp [containsStr, strHasPre, slashStr]
  | cons c xs ih => simp [containsStr, ih]

theorem takeNoSlash_append {q : Str} (h : ∀ c ∈ q, c ≠ '/') (ys : Str) :
    takeNoSlash (q ++ '/' :: ys) = q := by
  induction q with
  | nil => simp [takeNoSlash]
  | cons c rest ih =>
      have hc := h c (List.mem_cons_self c rest)
      simp [takeNoSlash, hc, ih (fun c hc => h c (List.mem_cons_of_mem _ hc))]

theorem dropToSlashTail_append {q : Str} (h : ∀ c ∈ q, c ≠ '/') (ys : Str) :
    dropToSlashTail (q ++ '/' :: ys) = ys := by
  induction q with
  | nil => simp [dropToSlashTail]
  | cons c rest ih =>
      have hc := h c (List.mem_cons_self c rest)
      simp [dropToSlashTail, hc, ih (fun c hc => h c (List.mem_cons_of_mem _ hc))]

theorem dropLeadSlash_cons {c : Char} (h : c ≠ '/') (cs : Str) :
    dropLeadSlash (c :: cs) = c :: cs := by
  simp [dropLeadSlash, h]

theorem trimTrailSlash_no_slash_end (cs : Str) (c : Char) (h : c ≠ '/') :
    trimTrailSlash (cs ++ [c]) = cs ++ [c] := by
  induction cs with
  | nil => simp [trimTrailSlash, h]
  | cons d cs ih =>
      show (match trimTrailSlash (cs ++ [c]) with
        | [] => if d = '/' then [] else [d]
        | r => d :: r) = d :: (cs ++ [c])
      rw [ih]
      cases cs <;> rfl

theorem trimTrailSlash_slash_end (cs : Str) (c : Char) (h : c ≠ '/') :
    trimTrailSlash ((cs ++ [c]) ++ ['/']) = cs ++ [c] := by
  induction cs with
  | nil => simp [trimTrailSlash, h]
  | cons d cs ih =>
      show (match trimTrailSlash ((cs ++ [c]) ++ ['/']) with
        | [] => if d = '/' then [] else [d]
        | r => d :: r) = d :: (cs ++ [c])
      rw [ih]
      cases cs <;> rfl

theorem plainTok_head {s : Str} (h : s ∈ plainToks) :
    ∃ c cs, s = c :: cs ∧ c ≠ '/' := by
  simp only [plainToks, List.mem_cons, List.not_mem_nil, or_false] at h
  rcases h with rfl | rfl | rfl | rfl
  · exact ⟨'o', "pen".toList, by decide, by decide⟩
  · exact ⟨'c', "lose".toList, by decide, by decide⟩
  · exact ⟨'a', "bort".toList, by decide, by decide⟩
  · exact ⟨'p', "eek".toList, by decide, by decide⟩

theorem plainTok_last {s : Str} (h : s ∈ plainToks) :
    ∃ cs c, s = cs ++ [c] ∧ c ≠ '/' := by
  simp only [plainToks, List.mem_cons, List.not_mem_nil, or_false] at h
  rcases h with rfl | rfl | rfl | rfl
  · exact ⟨"ope".toList, 'n', by decide, by decide⟩
  · exact ⟨"clos".toList, 'e', by decide, by decide⟩
  · exact ⟨"abor".toList, 't', by decide, by decide⟩
  · exact ⟨"pee".toList, 'k', by decide, by decide⟩

theorem joinSlash_cons_ne (s : Str) {ps : List Str} (h : ps ≠ []) :
    joinSlash (s :: ps) = s ++ '/' :: joinSlash ps := by
  cases ps with
  | nil => exact absurd rfl h
  | cons p ps' => rfl

theorem joinSlash_head {ps : List Str} (hne : ps ≠ [])
    (h : ∀ s ∈ ps, s ∈ plainToks) :
    ∃ c cs, joinSlash ps = c :: cs ∧ c ≠ '/' := by
  cases ps with
  | nil => exact absurd rfl hne
  | cons s rest =>
      obtain ⟨c, cs, hs, hc⟩ := plainTok_head (h s (List.mem_cons_self s rest))
      cases rest with
      | nil => exact ⟨c, cs, by simp [joinSlash, hs], hc⟩
      | cons r rs =>
          exact ⟨c, cs ++ '/' :: joinSlash (r :: rs), by simp [joinSlash, hs], hc⟩

theorem joinSlash_last {ps : List Str} (hne : ps ≠ [])
    (h : ∀ s ∈ ps, s ∈ plainToks) :
    ∃ cs c, joinSlash ps = cs ++ [c] ∧ c ≠ '/' := by
  induction ps with
  | nil => exact absurd rfl hne
  | cons s rest ih =>
      cases rest with
      | nil =>
          obtain ⟨cs, c, hs, hc⟩ := plainTok_last (h s (List.mem_cons_self s []))
          exact ⟨cs, c, by simp [joinSlash, hs], hc⟩
      | cons r rs =>
          obtain ⟨cs, c, hj, hc⟩ := ih (by simp)
            (fun u hu => h u (List.mem_cons_of_mem _ hu))
          refine ⟨s ++ '/' :: cs, c, ?_, hc⟩
          rw [joinSlash_cons_ne s (by simp), hj]
          simp

theorem trimSlash_joinSlash {ps : List Str} (h : ∀ s ∈ ps, s ∈ plainToks) :
    trimSlash (joinSlash ps) = joinSlash ps ∧
    trimSlash (joinSlash ps ++ ['/']) = joinSlash ps := by
  cases hps : ps with
  | nil => exact ⟨by decide, by decide⟩
  | cons s rest =>
      subst hps
      obtain ⟨c, cs, hj1, hc1⟩ := joinSlash_head (by simp) h
      obtain ⟨cs2, c2, hj2, hc2⟩ := joinSlash_last (by simp) h
      constructor
      · unfold trimSlash
        rw [hj1, dropLeadSlash_cons hc1, ← hj1, hj2,
          trimTrailSlash_no_slash_end _ _ hc2]
      · unfold trimSlash
        rw [hj1, List.cons_append, dropLeadSlash_cons hc1, ← List.cons_append, ← hj1,
          hj2, trimTrailSlash_slash_end _ _ hc2]

theorem plains_timeout (ds : Str) (rest : List GetTok) :
    plains (.timeout ds :: rest) = plains rest := by
  simp [plains, List.filterMap_cons]

theorem plains_plain (s : Str) (rest : List GetTok) :
    plains (.plain s :: rest) = s :: plains rest := by
  simp [plains, List.filterMap_cons]

theorem plains_sub {ts : List GetTok} (h : ∀ t ∈ ts, goodTok t) :
    ∀ s ∈ plains ts, s ∈ plainToks := by
  intro s hs
  unfold plains at hs
  rw [List.mem_filterMap] at hs
  obtain ⟨t, ht, hmap⟩ := hs
  cases t with
  | plain s' =>
      simp only [Option.some.injEq] at hmap
      subst hmap
      exact h _ ht
  | timeout ds => simp at hmap

/-- `bodyStrip` is the `/`-join of the plain tokens, possibly with one
trailing slash (and only when there is at least one plain token). -/
theorem bodyStrip_join (ts : List GetTok) (h : ∀ t ∈ ts, goodTok t) :
    (plains ts = [] → bodyStrip ts = []) ∧
    (plains ts ≠ [] →
      bodyStrip ts = joinSlash (plains ts) ∨
      bodyStrip ts = joinSlash (plains ts) ++ ['/']) := by
  induction ts with
  | nil => exact ⟨fun _ => rfl, fun hne => absurd rfl hne⟩
  | cons t rest ih =>
      have ih' := ih (fun u hu => h u (List.mem_cons_of_mem _ hu))
      cases t with
      | timeout ds =>
          rw [plains_timeout]
          cases rest with
          | nil => exact ⟨fun _ => rfl, fun hne => absurd rfl hne⟩
          | cons r rs =>
              constructor
              · intro hp
                show bodyStrip (r :: rs) = []
                exact ih'.1 hp
              · intro hp
                show bodyStrip (r :: rs) = _ ∨ bodyStrip (r :: rs) = _
                exact ih'.2 hp
      | plain s =>
          rw [plains_plain]
          refine ⟨fun hp => by simp at hp, fun _ => ?_⟩
          cases rest with
          | nil =>
              left
              show s ++ [] = joinSlash [s]
              rfl
          | cons r rs =>
              show (s ++ '/' :: bodyStrip (r :: rs)) = _ ∨
                (s ++ '/' :: bodyStrip (r :: rs)) = _
              by_cases hpr : plains (r :: rs) = []
              · right
                rw [ih'.1 hpr, hpr]
                show s ++ ['/'] = joinSlash [s] ++ ['/']
                simp [joinSlash]
              · have hj := joinSlash_cons_ne s hpr
                rcases ih'.2 hpr with hb | hb
                · left
                  rw [hb, hj]
                · right
                  rw [hb, hj]
                  simp

instance (t : GetTok) : Decidable (goodTok t) := by
  cases t <;> simp only [goodTok] <;> infer_instance

/-- C8: for any input `q(/<tok>)*` built from well-formed tokens, the
parser returns `QueueName = q` and `SubCommand` equal to the `/`-join of
the non-timeout tokens in their original order. -/
theorem parseGetCommand_spec (g q : Str) (ts : List GetTok)
    (hq : ∀ c ∈ q, isQChar c = true)
    (hts : ∀ t ∈ ts, goodTok t) :
    parseGetCommand [g, q ++ renderToks ts] = ⟨g, q, joinSlash (plains ts)⟩ := by
  have hqslash : ∀ c ∈ q, c ≠ '/' := fun c hc => (isQChar_ne (hq c hc)).2
  have harg1 : (if containsStr (q ++ renderToks ts) tEqStr = true then
      replaceTimeouts (q ++ renderToks ts) else q ++ renderToks ts) =
      q ++ stripRender ts := by
    by_cases hg : containsStr (q ++ renderToks ts) tEqStr = true
    · rw [if_pos hg, replaceTimeouts_render q hq ts hts]
    · rw [if_neg hg]
      have hnotmo : ∀ t ∈ ts, isTmo t = false := by
        intro t ht
        cases htm : isTmo t
        · rfl
        · exfalso
          obtain ⟨xs, ys, hxy⟩ := render_has_tEq ts q ⟨t, ht, htm⟩
          rw [hxy] at hg
          exact hg (containsStr_tEq xs ys)
      rw [renderToks_all_plain ts hnotmo]
  have hpre : parseGetCommand [g, q ++ renderToks ts] =
      (if containsStr (q ++ stripRender ts) slashStr = true then
        { Name := g, QueueName := takeNoSlash (q ++ stripRender ts),
          SubCommand := trimSlash (dropToSlashTail (q ++ stripRender ts)) }
      else { Name := g, QueueName := q ++ stripRender ts, SubCommand := [] }) := by
    simp only [parseGetCommand, List.getD_cons_zero, List.getD_cons_succ]
    rw [harg1]
  rw [hpre]
  cases ts with
  | nil =>
      rw [if_neg (by
        show ¬ containsStr (q ++ ([] : Str)) slashStr = true
        rw [List.append_nil, containsStr_no_slash hqslash]
        simp)]
      show ({ Name := g, QueueName := q ++ [], SubCommand := [] } : Command) = _
      simp [plains, joinSlash]
  | cons t rest =>
      have hbody : stripRender (t :: rest) = '/' :: bodyStrip (t :: rest) := rfl
      rw [hbody]
      rw [if_pos (containsStr_slash q (bodyStrip (t :: rest)))]
      rw [takeNoSlash_append hqslash, dropToSlashTail_append hqslash]
      have hplainsub := plains_sub hts
      have hbj := bodyStrip_join (t :: rest) hts
      by_cases hp : plains (t :: rest) = []
      · rw [hbj.1 hp, hp]
        show ({ Name := g, QueueName := q, SubCommand := trimSlash [] } : Command) = _
        rfl
      · rcases hbj.2 hp with hb | hb
        · rw [hb, (trimSlash_joinSlash hplainsub).1]
        · rw [hb, (trimSlash_joinSlash hplainsub).2]

theorem parseGetCommand_spec_witness :
    parseGetCommand ["get".toList,
        "work".toList ++ renderToks [.timeout ("10".toList), .plain strClose,
          .plain strOpen, .timeout ("1000".toList)]] =
      ⟨"get".toList, "work".toList,
        joinSlash (plains [.timeout ("10".toList), .plain strClose,
          .plain strOpen, .timeout ("1000".toList)])⟩ :=
  parseGetCommand_spec ("get".toList) ("work".toList)
    [.timeout ("10".toList), .plain strClose, .plain strOpen, .timeout ("1000".toList)]
    (by decide) (by decide)

end Siberite
